import Mathlib

/-!
Verification of the markdown-ingestion-and-feed-assembly pipeline of the
sassman.dev blog repository.  The pipeline lives in a single TypeScript
build script exporting `markdownToJson`, with helpers `getSortedPostsData`
and `getPostData`.  We give a shallow embedding of that script: JavaScript
string and date primitives are modelled as executable Lean functions, the
file system is a list of directory entries, the two external libraries
(`Marked.parse` and `excerpt-html`) are abstract function parameters, and
`Array.prototype.sort` is modelled as V8's TimSort, the engine that runs
the script — the comparator never returns `0`, so ECMAScript leaves the
produced order implementation-defined and the engine's behaviour is the
ground truth.
-/

deriving instance DecidableEq for Except

namespace Blog

/-! ## Models of the JavaScript string primitives used by the script -/

/-- `String.prototype.split` with a single-character separator, on the
underlying character list: splits at every occurrence of the separator and
keeps empty fragments (JS `"a,,b".split(',') = ["a","","b"]`,
`"".split(',') = [""]`). -/
def splitCharList (sep : Char) : List Char → List (List Char)
  | [] => [[]]
  | x :: xs =>
    match splitCharList sep xs with
    | [] => if x = sep then [[], []] else [[x]]
    | g :: gs => if x = sep then [] :: g :: gs else (x :: g) :: gs

/-- `String.prototype.split(sep)` for a one-character separator. -/
def jsSplit (sep : Char) (s : String) : List String :=
  (splitCharList sep s.data).map List.asString

/-- `String.prototype.trim`: remove whitespace from both ends. -/
def jsTrim (s : String) : String :=
  ⟨((s.data.dropWhile Char.isWhitespace).reverse.dropWhile Char.isWhitespace).reverse⟩

/-- `String.prototype.substring(0, n)`: the first `n` characters. -/
def strTake (s : String) (n : Nat) : String :=
  ⟨s.data.take n⟩

/-- `String.prototype.endsWith`. -/
def strEndsWith (s t : String) : Bool :=
  List.isPrefixOf t.data.reverse s.data.reverse

/-! ## Model of JavaScript dates

A JavaScript date value is modelled as `Option Int`: `some t` is a valid
timestamp, `none` is `NaN` (an Invalid Date).  Comparisons involving `NaN`
are false in JavaScript, which `jsDateLt`/`jsDateGe` reproduce. -/

/-- `a < b` on JS date values; any comparison with `NaN` is false. -/
def jsDateLt : Option Int → Option Int → Bool
  | some a, some b => decide (a < b)
  | _, _ => false

/-- `a >= b` on JS date values; any comparison with `NaN` is false. -/
def jsDateGe : Option Int → Option Int → Bool
  | some a, some b => decide (b ≤ a)
  | _, _ => false

/-- Gregorian leap-year rule, as used by JS `Date`. -/
def isLeapYear (y : Nat) : Bool :=
  (y % 4 = 0 && y % 100 ≠ 0) || y % 400 = 0

/-- Number of days of month `m` of year `y`. -/
def daysInMonth (y m : Nat) : Nat :=
  if m = 2 then (if isLeapYear y then 29 else 28)
  else if m = 4 ∨ m = 6 ∨ m = 9 ∨ m = 11 then 30
  else 31

/-- Numeric value of a decimal digit character. -/
def digitVal (c : Char) : Option Nat :=
  if c.isDigit then some (c.toNat - '0'.toNat) else none

/-- Order-isomorphic abstraction of the millisecond timestamp
`Date.parse "y-m-d"` would return: later calendar dates map to larger
codes. -/
def dateCode (y m d : Nat) : Int :=
  ((y * 10000 + m * 100 + d : Nat) : Int)

/-- Model of JavaScript `Date.parse` restricted to the ISO `YYYY-MM-DD`
shape that the repository's filename convention produces: ten characters,
digits in the year/month/day positions, dashes in between, and a calendar-
valid month and day.  Every other input is modelled as yielding `NaN`
(`none`); the actual timestamp is abstracted to the order-isomorphic
`dateCode`. -/
def jsDateParse (s : String) : Option Int :=
  match s.data with
  | [y1, y2, y3, y4, c5, m1, m2, c8, d1, d2] =>
    if c5 = '-' ∧ c8 = '-' then
      match digitVal y1, digitVal y2, digitVal y3, digitVal y4,
            digitVal m1, digitVal m2, digitVal d1, digitVal d2 with
      | some a, some b, some c, some d, some e, some f, some g, some h =>
        let y := a * 1000 + b * 100 + c * 10 + d
        let m := e * 10 + f
        let dy := g * 10 + h
        if 1 ≤ m ∧ m ≤ 12 ∧ 1 ≤ dy ∧ dy ≤ daysInMonth y m then
          some (dateCode y m dy)
        else none
      | _, _, _, _, _, _, _, _ => none
    else none
  | _ => none

/-! ## Data model of the pipeline -/

/-- The object returned by `loadFront` (package `yaml-front-matter`) on a
file whose front-matter block parses: the header's key-value fields plus
the `__content` property holding the raw un-rendered body.  The repository
writes `tags` as one comma-delimited string, so the parsed `tags` field is
a string; `date`, when present, is a parsed (valid) date value. -/
structure YamlHeader where
  title : Option String
  published : Option Bool
  date : Option Int
  description : Option String
  tags : Option String
  series : Option String
  cover_image : Option String
  __content : String
deriving DecidableEq

/-- The text of one content file, at the level of detail `getPostData`
observes: either `loadFront` succeeds on it and returns a `YamlHeader`, or
the front-matter block is malformed and `loadFront` throws. -/
inductive FileData where
  | wellFormed (header : YamlHeader)
  | malformed
deriving DecidableEq

/-- One entry of the content directory: the filename as returned by
`readdirSync`, and the result of `readFileSync` on it — `none` models a
read that throws (unreadable file). -/
structure DirEntry where
  name : String
  content : Option FileData
deriving DecidableEq

/-- The normalized output record built by `getPostData`: the spread of the
`loadFront` result (including its `__content` body field, which the spread
copies and nothing removes) with `slug`, `contentHtml`, `excerptHtml`
added and `tags`/`date` overridden by the normalized values. -/
structure Post where
  title : Option String
  published : Option Bool
  date : Option Int
  description : Option String
  tags : Option (List String)
  series : Option String
  cover_image : Option String
  __content : String
  slug : String
  excerptHtml : String
  contentHtml : String
deriving DecidableEq

/-- The two external libraries the script calls, treated as black boxes:
`Marked.parse` (markdown to HTML) and `excerpt-html` at `pruneLength`
250. -/
structure ExternalLibs where
  markedParse : String → String
  excerptHtml : String → String

/-- The record literal `getPostData` returns for a file whose front matter
parsed: `{...yamlHeader, slug: file, contentHtml, excerptHtml: excerpt,
tags: yamlHeader.tags?.split(',').map(t => t.trim()), date}` with
`date = yamlHeader.date ?? Date.parse(file.substring(0, 10))`. -/
def mkPost (libs : ExternalLibs) (file : String) (yamlHeader : YamlHeader) : Post :=
  let contentHtml := libs.markedParse yamlHeader.__content
  let excerpt := libs.excerptHtml contentHtml
  let date :=
    match yamlHeader.date with
    | some d => some d
    | none => jsDateParse (strTake file 10)
  { title := yamlHeader.title
    published := yamlHeader.published
    date := date
    description := yamlHeader.description
    tags := yamlHeader.tags.map (fun s => (jsSplit ',' s).map jsTrim)
    series := yamlHeader.series
    cover_image := yamlHeader.cover_image
    __content := yamlHeader.__content
    slug := file
    excerptHtml := excerpt
    contentHtml := contentHtml }

/-- `getPostData`: reads the file (outside the `try` block, so a failing
read escapes as a rejection, modelled `Except.error ()`), then inside
`try … catch` parses the front matter — a malformed block makes
`loadFront` throw, the `catch` logs it and returns `undefined` (`.ok
none`) — and otherwise builds the `Post` record. -/
def getPostData (libs : ExternalLibs) (entry : DirEntry) : Except Unit (Option Post) :=
  match entry.content with
  | none => Except.error ()
  | some FileData.malformed => Except.ok none
  | some (FileData.wellFormed yamlHeader) =>
    Except.ok (some (mkPost libs entry.name yamlHeader))

/-- `Promise.all` over the already-started per-file promises: resolves
with the list of results, rejects as soon as any input rejected. -/
def promiseAll : List (Except Unit α) → Except Unit (List α)
  | [] => Except.ok []
  | Except.error e :: _ => Except.error e
  | Except.ok a :: rest =>
    match promiseAll rest with
    | Except.error e => Except.error e
    | Except.ok as => Except.ok (a :: as)

/-- The ingestion pass of `getSortedPostsData`:
`Promise.all(fileNames.filter(f => f.endsWith('.md')).map(getPostData))`. -/
def scannedPosts (libs : ExternalLibs) (dir : List DirEntry) :
    Except Unit (List (Option Post)) :=
  promiseAll (((dir.filter (fun e => strEndsWith e.name ".md")).map (getPostData libs)))

/-- `.filter(p => p?.published).map(p => p as Post)`: keep the results
that are defined and have a truthy `published` flag. -/
def publishedOf (allPostsData : List (Option Post)) : List Post :=
  allPostsData.filterMap (fun p =>
    p.bind (fun post => if post.published = some true then some post else none))

/-- The sort comparator `(a, b) => a.date < b.date ? 1 : -1`, as the
predicate "the comparator returns `1`" (a non-negative value); it returns
`-1` (a negative value) exactly when this is false.  It never returns
`0`. -/
def postLt (a b : Post) : Bool :=
  jsDateLt a.date b.date

/-- Length of the initial "ascending" extension after `prev`: V8's
`CountAndMakeRun` keeps extending a non-descending run while the
comparator applied to (current, previous) is non-negative, i.e. while
`lt current previous` holds. -/
def runAscLen (lt : α → α → Bool) : α → List α → Nat
  | _, [] => 0
  | prev, c :: cs => if lt c prev then runAscLen lt c cs + 1 else 0

/-- Length of the initial "descending" extension after `prev`: the run
keeps extending while the comparator applied to (current, previous) is
negative, i.e. while `lt current previous` is false. -/
def runDescLen (lt : α → α → Bool) : α → List α → Nat
  | _, [] => 0
  | prev, c :: cs => if lt c prev then 0 else runDescLen lt c cs + 1

/-- V8's `CountAndMakeRun`: split off the initial run.  The run is
classified descending when the very first comparison
`cmp(a[1], a[0])` is negative (`lt a1 a0` false), and a descending run is
reversed in place before it is returned. -/
def countAndMakeRun (lt : α → α → Bool) : List α → List α × List α
  | [] => ([], [])
  | [a] => ([a], [])
  | a0 :: a1 :: rest =>
    if lt a1 a0 then
      (a0 :: a1 :: rest.take (runAscLen lt a1 rest),
        rest.drop (runAscLen lt a1 rest))
    else
      ((a0 :: a1 :: rest.take (runDescLen lt a1 rest)).reverse,
        rest.drop (runDescLen lt a1 rest))

/-- The binary-search loop of V8's `BinaryInsertionSort`, finding the
insertion point of `pivot` in the sorted prefix: at each probe
`mid = left + (right - left) / 2`, a negative comparison
(`lt pivot a[mid]` false) moves `right` down to `mid`, otherwise `left`
moves past `mid` — so the pivot lands before every element it ties with.
The fuel argument only bounds the iteration count; `right - left` shrinks
at every step, so `sorted.length` fuel always suffices. -/
def binSearchLoop (lt : α → α → Bool) (sorted : List α) (pivot : α) :
    Nat → Nat → Nat → Nat
  | 0, left, _ => left
  | fuel + 1, left, right =>
    if left < right then
      if lt pivot (sorted.getD (left + (right - left) / 2) pivot) then
        binSearchLoop lt sorted pivot fuel (left + (right - left) / 2 + 1) right
      else
        binSearchLoop lt sorted pivot fuel left (left + (right - left) / 2)
    else left

/-- The insertion point of `pivot` in `sorted`, per V8's binary search. -/
def binSearch (lt : α → α → Bool) (sorted : List α) (pivot : α) : Nat :=
  binSearchLoop lt sorted pivot sorted.length 0 sorted.length

/-- Insert `pivot` at position `i` (the move loop of
`BinaryInsertionSort` shifts the tail one slot right). -/
def insertAt (i : Nat) (pivot : α) (l : List α) : List α :=
  l.take i ++ pivot :: l.drop i

/-- V8's `BinaryInsertionSort`: grow the sorted prefix by binary-inserting
each remaining element in turn. -/
def binaryInsertionSort (lt : α → α → Bool) : List α → List α → List α
  | sorted, [] => sorted
  | sorted, p :: ps =>
    binaryInsertionSort lt (insertAt (binSearch lt sorted p) p sorted) ps

/-- Model of `Array.prototype.sort(cmp)` as Node's V8 engine executes it
(TimSort).  The script's comparator never returns `0`, so ECMAScript's
stability guarantee (which speaks only of comparisons evaluating to zero)
imposes nothing and the produced order is engine-determined; the engine is
therefore what we model.  `lt a b` stands for "the comparator returns a
non-negative value on `(a, b)`".  V8 returns arrays shorter than two
unchanged, otherwise detects the initial run (reversing it when the first
comparison is negative) and extends it by binary insertion; for arrays
shorter than 64 elements the computed minimum run length equals the array
length, so the run is extended to the whole array and TimSort's merge
machinery is never reached — this single-run path, which covers every
feed this blog can produce, is what `jsSort` embeds. -/
def jsSort (lt : α → α → Bool) (l : List α) : List α :=
  if l.length < 2 then l
  else binaryInsertionSort lt (countAndMakeRun lt l).1 (countAndMakeRun lt l).2

/-- `getSortedPostsData`: scan the content directory, ingest every `.md`
file, keep the published posts and sort them with the date comparator. -/
def getSortedPostsData (libs : ExternalLibs) (dir : List DirEntry) :
    Except Unit (List Post) :=
  match scannedPosts libs dir with
  | Except.error e => Except.error e
  | Except.ok allPostsData =>
    Except.ok (jsSort postLt (publishedOf allPostsData))

/-- The JSON artifact `JSON.stringify({ posts })` written to
`_posts.json`. -/
structure Feed where
  posts : List Post
deriving DecidableEq

/-- `markdownToJson`: await `getSortedPostsData` and serialise the result
as the feed artifact (a rejection of the scan rejects the build and no
feed is written). -/
def markdownToJson (libs : ExternalLibs) (dir : List DirEntry) : Except Unit Feed :=
  match getSortedPostsData libs dir with
  | Except.error e => Except.error e
  | Except.ok posts => Except.ok { posts := posts }

/-- The success diagnostics `posts.map(p => console.log('✅ ' + p.slug))`:
one line per post of the final feed, carrying its slug. -/
def successLogs (posts : List Post) : List String :=
  posts.map Post.slug

/-- The number of failure diagnostics emitted during a scan: `getPostData`
logs the caught exception (one `console.log(e)`) exactly when it returns
`undefined`, i.e. once per `.md` file whose front matter is malformed. -/
def failureLogCount (libs : ExternalLibs) (dir : List DirEntry) : Nat :=
  (dir.filter (fun e => strEndsWith e.name ".md")).countP
    (fun e =>
      match getPostData libs e with
      | Except.ok none => true
      | _ => false)

/-! ## Helper lemmas about the pipeline -/

/-- The per-file outcome visible in the final feed: a directory entry
contributes a post exactly when its front matter parses and the header's
`published` flag is truthy, and the contributed post is `mkPost` of its
header. -/
def pubPostOf (libs : ExternalLibs) (e : DirEntry) : Option Post :=
  match e.content with
  | some (FileData.wellFormed y) =>
    if y.published = some true then some (mkPost libs e.name y) else none
  | _ => none

theorem pubPostOf_none {libs : ExternalLibs} {e : DirEntry}
    (hc : e.content = none) : pubPostOf libs e = none := by
  simp [pubPostOf, hc]

theorem pubPostOf_malformed {libs : ExternalLibs} {e : DirEntry}
    (hc : e.content = some FileData.malformed) : pubPostOf libs e = none := by
  simp [pubPostOf, hc]

theorem pubPostOf_wellFormed {libs : ExternalLibs} {e : DirEntry} {y : YamlHeader}
    (hc : e.content = some (FileData.wellFormed y)) :
    pubPostOf libs e =
      (if y.published = some true then some (mkPost libs e.name y) else none) := by
  simp [pubPostOf, hc]

theorem pubPostOf_eq_some {libs : ExternalLibs} {e : DirEntry} {p : Post}
    (h : pubPostOf libs e = some p) :
    ∃ y, e.content = some (FileData.wellFormed y) ∧ y.published = some true ∧
      p = mkPost libs e.name y := by
  match hc : e.content with
  | none => rw [pubPostOf_none hc] at h; cases h
  | some FileData.malformed => rw [pubPostOf_malformed hc] at h; cases h
  | some (FileData.wellFormed y) =>
    rw [pubPostOf_wellFormed hc] at h
    by_cases hp : y.published = some true
    · rw [if_pos hp, Option.some.injEq] at h
      exact ⟨y, rfl, hp, h.symm⟩
    · rw [if_neg hp] at h; cases h

theorem pubPostOf_slug {libs : ExternalLibs} {e : DirEntry} {p : Post}
    (h : pubPostOf libs e = some p) : p.slug = e.name := by
  obtain ⟨y, _, _, hp⟩ := pubPostOf_eq_some h
  rw [hp]; rfl

theorem pubPostOf_published {libs : ExternalLibs} {e : DirEntry} {p : Post}
    (h : pubPostOf libs e = some p) : p.published = some true := by
  obtain ⟨y, _, hpub, hp⟩ := pubPostOf_eq_some h
  rw [hp]; exact hpub

theorem promiseAll_ok {l : List (Except Unit α)} {res : List α}
    (h : promiseAll l = Except.ok res) :
    List.Forall₂ (fun x b => x = Except.ok b) l res := by
  induction l generalizing res with
  | nil =>
    cases h
    exact List.Forall₂.nil
  | cons x xs ih =>
    cases x with
    | error e => cases h
    | ok a =>
      unfold promiseAll at h
      match hrec : promiseAll xs with
      | Except.error e => rw [hrec] at h; cases h
      | Except.ok as =>
        rw [hrec] at h
        cases h
        exact List.Forall₂.cons rfl (ih hrec)

theorem promiseAll_error_of_mem {l : List (Except Unit α)}
    (h : Except.error () ∈ l) : promiseAll l = Except.error () := by
  induction l with
  | nil => cases h
  | cons x xs ih =>
    cases x with
    | error e => cases e; rfl
    | ok a =>
      have hx : Except.error () ∈ xs := by
        cases h with
        | tail _ h => exact h
      unfold promiseAll
      rw [ih hx]

/-- The `.md` entries of the directory, in scan order. -/
def mdEntries (dir : List DirEntry) : List DirEntry :=
  dir.filter (fun e => strEndsWith e.name ".md")

theorem scannedPosts_ok {libs : ExternalLibs} {dir : List DirEntry}
    {scan : List (Option Post)} (h : scannedPosts libs dir = Except.ok scan) :
    List.Forall₂ (fun e b => getPostData libs e = Except.ok b) (mdEntries dir) scan := by
  unfold scannedPosts at h
  exact (List.forall₂_map_left_iff).mp (promiseAll_ok h)

theorem publishedOf_cons_none (l : List (Option Post)) :
    publishedOf (none :: l) = publishedOf l := by
  unfold publishedOf
  rw [List.filterMap_cons]
  rfl

theorem publishedOf_cons_some (post : Post) (l : List (Option Post)) :
    publishedOf (some post :: l) =
      if post.published = some true then post :: publishedOf l else publishedOf l := by
  unfold publishedOf
  rw [List.filterMap_cons]
  by_cases hp : post.published = some true
  · simp [hp]
  · simp [hp]

theorem publishedOf_scan {libs : ExternalLibs} :
    ∀ {entries : List DirEntry} {scan : List (Option Post)},
      List.Forall₂ (fun e b => getPostData libs e = Except.ok b) entries scan →
      publishedOf scan = entries.filterMap (pubPostOf libs) := by
  intro entries scan h
  induction h with
  | nil => rfl
  | @cons e b es bs hab _ ih =>
    rw [List.filterMap_cons]
    match hc : e.content with
    | none =>
      simp only [getPostData, hc] at hab
      exact Except.noConfusion hab
    | some FileData.malformed =>
      simp only [getPostData, hc, Except.ok.injEq] at hab
      subst hab
      rw [publishedOf_cons_none, pubPostOf_malformed hc, ih]
    | some (FileData.wellFormed y) =>
      simp only [getPostData, hc, Except.ok.injEq] at hab
      subst hab
      rw [publishedOf_cons_some, pubPostOf_wellFormed hc]
      have hpp : (mkPost libs e.name y).published = y.published := rfl
      by_cases hp : y.published = some true
      · rw [hpp, if_pos hp, if_pos hp, ih]
      · rw [hpp, if_neg hp, if_neg hp, ih]

/-- Any successful run of `getSortedPostsData` is the engine sort of the
per-file contributions of the `.md` entries taken in scan order. -/
theorem feed_eq {libs : ExternalLibs} {dir : List DirEntry} {feed : List Post}
    (h : getSortedPostsData libs dir = Except.ok feed) :
    feed = jsSort postLt ((mdEntries dir).filterMap (pubPostOf libs)) := by
  unfold getSortedPostsData at h
  match hs : scannedPosts libs dir with
  | Except.error e => rw [hs] at h; cases h
  | Except.ok scan =>
    rw [hs] at h
    cases h
    rw [publishedOf_scan (scannedPosts_ok hs)]

/-! ## Lemmas about the sort model -/

theorem countAndMakeRun_append_perm (lt : α → α → Bool) :
    ∀ l : List α, ((countAndMakeRun lt l).1 ++ (countAndMakeRun lt l).2).Perm l := by
  intro l
  match l with
  | [] => exact List.Perm.refl _
  | [a] => exact List.Perm.refl _
  | a0 :: a1 :: rest =>
    by_cases h : lt a1 a0
    · simp only [countAndMakeRun, if_pos h]
      rw [List.cons_append, List.cons_append, List.take_append_drop]
    · simp only [countAndMakeRun, if_neg h]
      refine (List.Perm.append_right _ (List.reverse_perm _)).trans ?_
      rw [List.cons_append, List.cons_append, List.take_append_drop]

theorem insertAt_perm (i : Nat) (pivot : α) (l : List α) :
    (insertAt i pivot l).Perm (pivot :: l) := by
  unfold insertAt
  refine List.perm_middle.trans ?_
  rw [List.take_append_drop]

theorem binaryInsertionSort_perm (lt : α → α → Bool) :
    ∀ (rest sorted : List α), (binaryInsertionSort lt sorted rest).Perm (sorted ++ rest) := by
  intro rest
  induction rest with
  | nil =>
    intro sorted
    rw [List.append_nil]
    exact List.Perm.refl _
  | cons p ps ih =>
    intro sorted
    show (binaryInsertionSort lt (insertAt (binSearch lt sorted p) p sorted) ps).Perm _
    refine (ih _).trans ?_
    refine (List.Perm.append_right ps (insertAt_perm _ p sorted)).trans ?_
    exact (List.perm_middle).symm

theorem jsSort_perm (lt : α → α → Bool) (l : List α) : (jsSort lt l).Perm l := by
  unfold jsSort
  by_cases h : l.length < 2
  · rw [if_pos h]
  · rw [if_neg h]
    exact (binaryInsertionSort_perm lt _ _).trans (countAndMakeRun_append_perm lt l)

theorem chain'_take_runAscLen (lt : α → α → Bool) :
    ∀ (rest : List α) (prev : α),
      List.Chain' (fun p c => lt c p = true) (prev :: rest.take (runAscLen lt prev rest)) := by
  intro rest
  induction rest with
  | nil =>
    intro prev
    exact List.chain'_singleton prev
  | cons c cs ih =>
    intro prev
    by_cases h : lt c prev
    · rw [show runAscLen lt prev (c :: cs) = runAscLen lt c cs + 1 from by
        rw [runAscLen, if_pos h]]
      exact List.Chain'.cons h (ih c)
    · rw [show runAscLen lt prev (c :: cs) = 0 from by rw [runAscLen, if_neg h]]
      exact List.chain'_singleton prev

theorem chain'_take_runDescLen (lt : α → α → Bool) :
    ∀ (rest : List α) (prev : α),
      List.Chain' (fun p c => lt c p = false) (prev :: rest.take (runDescLen lt prev rest)) := by
  intro rest
  induction rest with
  | nil =>
    intro prev
    exact List.chain'_singleton prev
  | cons c cs ih =>
    intro prev
    by_cases h : lt c prev
    · rw [show runDescLen lt prev (c :: cs) = 0 from by rw [runDescLen, if_pos h]]
      exact List.chain'_singleton prev
    · rw [show runDescLen lt prev (c :: cs) = runDescLen lt c cs + 1 from by
        rw [runDescLen, if_neg h]]
      rw [Bool.not_eq_true] at h
      exact List.Chain'.cons h (ih c)

/-- The run split off by `countAndMakeRun` is sorted per the comparator:
on every adjacent pair the comparator is negative-or-tie, never `1`. -/
theorem chain'_countAndMakeRun (lt : α → α → Bool)
    (hflip : ∀ x y, lt x y = true → lt y x = false) :
    ∀ l : List α, List.Chain' (fun x y => lt x y = false) (countAndMakeRun lt l).1 := by
  intro l
  match l with
  | [] => exact List.chain'_nil
  | [a] => exact List.chain'_singleton a
  | a0 :: a1 :: rest =>
    by_cases h : lt a1 a0
    · rw [show (countAndMakeRun lt (a0 :: a1 :: rest)).1 =
          a0 :: a1 :: rest.take (runAscLen lt a1 rest) from by
        rw [countAndMakeRun, if_pos h]]
      have hasc := (chain'_take_runAscLen lt rest a1).imp
        (fun p c hpc => hflip c p hpc)
      exact List.Chain'.cons (hflip a1 a0 h) hasc
    · rw [show (countAndMakeRun lt (a0 :: a1 :: rest)).1 =
          (a0 :: a1 :: rest.take (runDescLen lt a1 rest)).reverse from by
        rw [countAndMakeRun, if_neg h]]
      rw [List.chain'_reverse]
      rw [Bool.not_eq_true] at h
      exact List.Chain'.cons h (chain'_take_runDescLen lt rest a1)

theorem binSearchLoop_spec (lt : α → α → Bool) (sorted : List α) (pivot : α) :
    ∀ (fuel left right : Nat),
      right - left ≤ fuel → left ≤ right → right ≤ sorted.length →
      (left = 0 ∨ lt pivot (sorted.getD (left - 1) pivot) = true) →
      (right = sorted.length ∨ lt pivot (sorted.getD right pivot) = false) →
      binSearchLoop lt sorted pivot fuel left right ≤ sorted.length ∧
      (binSearchLoop lt sorted pivot fuel left right = 0 ∨
        lt pivot (sorted.getD (binSearchLoop lt sorted pivot fuel left right - 1) pivot)
          = true) ∧
      (binSearchLoop lt sorted pivot fuel left right = sorted.length ∨
        lt pivot (sorted.getD (binSearchLoop lt sorted pivot fuel left right) pivot)
          = false) := by
  intro fuel
  induction fuel with
  | zero =>
    intro left right hfuel hlr hrn hL hR
    rw [show binSearchLoop lt sorted pivot 0 left right = left from rfl]
    have hleft : left = right := by omega
    refine ⟨by omega, hL, ?_⟩
    rw [hleft]
    exact hR
  | succ fuel ih =>
    intro left right hfuel hlr hrn hL hR
    rw [show binSearchLoop lt sorted pivot (fuel + 1) left right =
      (if left < right then
        (if lt pivot (sorted.getD (left + (right - left) / 2) pivot) then
          binSearchLoop lt sorted pivot fuel (left + (right - left) / 2 + 1) right
        else binSearchLoop lt sorted pivot fuel left (left + (right - left) / 2))
      else left) from rfl]
    by_cases hc : left < right
    · rw [if_pos hc]
      have hmidlo : left ≤ left + (right - left) / 2 := by omega
      have hmidhi : left + (right - left) / 2 < right := by omega
      by_cases hm : lt pivot (sorted.getD (left + (right - left) / 2) pivot)
      · rw [if_pos hm]
        refine ih (left + (right - left) / 2 + 1) right (by omega) (by omega) hrn ?_ hR
        right
        rw [Nat.add_sub_cancel]
        exact hm
      · rw [if_neg hm]
        rw [Bool.not_eq_true] at hm
        refine ih left (left + (right - left) / 2) (by omega) (by omega) (by omega) hL ?_
        right
        exact hm
    · rw [if_neg hc]
      have hleft : left = right := by omega
      refine ⟨by omega, hL, ?_⟩
      rw [hleft]
      exact hR

theorem binSearch_spec (lt : α → α → Bool) (sorted : List α) (pivot : α) :
    binSearch lt sorted pivot ≤ sorted.length ∧
    (binSearch lt sorted pivot = 0 ∨
      lt pivot (sorted.getD (binSearch lt sorted pivot - 1) pivot) = true) ∧
    (binSearch lt sorted pivot = sorted.length ∨
      lt pivot (sorted.getD (binSearch lt sorted pivot) pivot) = false) :=
  binSearchLoop_spec lt sorted pivot sorted.length 0 sorted.length (by omega) (by omega)
    (Nat.le_refl _) (Or.inl rfl) (Or.inl rfl)

/-- Inserting `pivot` at a position whose two neighbours relate to it
keeps the list `R`-chained. -/
theorem chain'_insertAt {R : α → α → Prop} (pivot : α) :
    ∀ (l : List α) (i : Nat), i ≤ l.length → List.Chain' R l →
      (0 < i → R (l.getD (i - 1) pivot) pivot) →
      (i < l.length → R pivot (l.getD i pivot)) →
      List.Chain' R (insertAt i pivot l) := by
  intro l
  induction l with
  | nil =>
    intro i hi _ _ _
    have : i = 0 := by
      rw [List.length_nil] at hi
      omega
    subst this
    exact List.chain'_singleton pivot
  | cons a as ih =>
    intro i hi hchain hpred hsucc
    match i with
    | 0 =>
      show List.Chain' R (pivot :: a :: as)
      refine List.Chain'.cons ?_ hchain
      exact hsucc (by rw [List.length_cons]; omega)
    | j + 1 =>
      show List.Chain' R (a :: insertAt j pivot as)
      rw [List.length_cons] at hi hsucc
      have htail : List.Chain' R (insertAt j pivot as) := by
        refine ih j (by omega) hchain.tail ?_ ?_
        · intro hj
          have := hpred (by omega)
          rw [show (a :: as).getD (j + 1 - 1) pivot = as.getD (j - 1) pivot from by
            rw [show j + 1 - 1 = (j - 1) + 1 from by omega]
            rfl] at this
          exact this
        · intro hj
          exact hsucc (by omega)
      rw [List.chain'_cons']
      refine ⟨?_, htail⟩
      intro b hb
      match j, as with
      | 0, as =>
        have hhead : (insertAt 0 pivot as).head? = some pivot := rfl
        rw [hhead, Option.mem_some_iff] at hb
        subst hb
        exact hpred (by omega)
      | k + 1, [] =>
        rw [List.length_nil] at hi
        omega
      | k + 1, c :: as' =>
        have hhead : (insertAt (k + 1) pivot (c :: as')).head? = some c := rfl
        rw [hhead, Option.mem_some_iff] at hb
        subst hb
        exact (List.chain'_cons.mp hchain).1

theorem chain'_binaryInsertionSort (lt : α → α → Bool)
    (hflip : ∀ x y, lt x y = true → lt y x = false) :
    ∀ (rest sorted : List α),
      List.Chain' (fun x y => lt x y = false) sorted →
      List.Chain' (fun x y => lt x y = false) (binaryInsertionSort lt sorted rest) := by
  intro rest
  induction rest with
  | nil =>
    intro sorted h
    exact h
  | cons p ps ih =>
    intro sorted h
    show List.Chain' _ (binaryInsertionSort lt (insertAt (binSearch lt sorted p) p sorted) ps)
    refine ih _ ?_
    obtain ⟨hle, hpred, hsucc⟩ := binSearch_spec lt sorted p
    refine chain'_insertAt p sorted _ hle h ?_ ?_
    · intro hpos
      rcases hpred with h0 | htrue
      · omega
      · exact hflip _ _ htrue
    · intro hlt
      rcases hsucc with hn | hfalse
      · omega
      · exact hfalse

/-- The output of the sort is sorted per the comparator: on every adjacent
pair the comparator is non-positive (never `1`). -/
theorem jsSort_chain' (lt : α → α → Bool)
    (hflip : ∀ x y, lt x y = true → lt y x = false) (l : List α) :
    List.Chain' (fun x y => lt x y = false) (jsSort lt l) := by
  unfold jsSort
  by_cases h : l.length < 2
  · rw [if_pos h]
    match l with
    | [] => exact List.chain'_nil
    | [a] => exact List.chain'_singleton a
    | a :: b :: t =>
      rw [List.length_cons, List.length_cons] at h
      omega
  · rw [if_neg h]
    exact chain'_binaryInsertionSort lt hflip _ _ (chain'_countAndMakeRun lt hflip l)

/-- A two-element array whose first comparison is negative is classified
as a descending run and reversed. -/
theorem jsSort_pair_of_not_lt {lt : α → α → Bool} (a b : α) (h : lt b a = false) :
    jsSort lt [a, b] = [b, a] := by
  unfold jsSort
  rw [if_neg (by simp)]
  rw [show countAndMakeRun lt [a, b] =
      (if lt b a then ([a, b], []) else ([b, a], [])) from rfl, h]
  rfl

/-- If the comparator returns `1` on `(x, y)` — a strict valid-date
comparison — it returns `-1` on `(y, x)`. -/
theorem jsDateLt_flip : ∀ d e : Option Int, jsDateLt d e = true → jsDateLt e d = false := by
  intro d e h
  cases d with
  | none => exact absurd h (by simp [jsDateLt])
  | some a =>
    cases e with
    | none => exact absurd h (by simp [jsDateLt])
    | some b =>
      unfold jsDateLt at h ⊢
      rw [decide_eq_true_eq] at h
      rw [decide_eq_false_iff_not]
      omega

theorem postLt_flip (x y : Post) (h : postLt x y = true) : postLt y x = false :=
  jsDateLt_flip _ _ h

/-! ## Slugs, counts and membership in the feed -/

theorem slugs_sublist_names (libs : ExternalLibs) :
    ∀ l : List DirEntry,
      ((l.filterMap (pubPostOf libs)).map Post.slug).Sublist (l.map DirEntry.name) := by
  intro l
  induction l with
  | nil => exact List.Sublist.refl _
  | cons e es ih =>
    rw [List.filterMap_cons, List.map_cons]
    match hp : pubPostOf libs e with
    | none => exact ih.cons e.name
    | some p =>
      rw [List.map_cons, pubPostOf_slug hp]
      exact ih.cons₂ e.name

theorem count_slug_one {libs : ExternalLibs} :
    ∀ {l : List DirEntry}, (l.map DirEntry.name).Nodup →
      ∀ {e : DirEntry}, e ∈ l → ∀ {p : Post}, pubPostOf libs e = some p →
      (l.filterMap (pubPostOf libs)).countP (fun q => decide (q.slug = e.name)) = 1 := by
  intro l hnd e he p hp
  induction l with
  | nil => cases he
  | cons a as ih =>
    rw [List.map_cons, List.nodup_cons] at hnd
    rw [List.filterMap_cons]
    by_cases hae : a = e
    · subst hae
      rw [hp]
      rw [List.countP_cons_of_pos _ _ (by rw [decide_eq_true_iff]; exact pubPostOf_slug hp)]
      have hzero :
          (as.filterMap (pubPostOf libs)).countP (fun q => decide (q.slug = a.name)) = 0 := by
        rw [List.countP_eq_length_filter, List.length_eq_zero, List.filter_eq_nil_iff]
        intro q hq
        rw [List.mem_filterMap] at hq
        obtain ⟨e', he', hq'⟩ := hq
        rw [decide_eq_true_iff, pubPostOf_slug hq']
        intro hname
        exact hnd.1 (hname ▸ List.mem_map_of_mem DirEntry.name he')
      rw [hzero]
    · have he' : e ∈ as := by
        cases he with
        | head => exact absurd rfl hae
        | tail _ h => exact h
      have hne : a.name ≠ e.name := by
        intro hname
        exact hnd.1 (hname ▸ List.mem_map_of_mem DirEntry.name he')
      have htail := ih hnd.2 he'
      match ha : pubPostOf libs a with
      | none => exact htail
      | some q =>
        rw [List.countP_cons_of_neg]
        · exact htail
        · rw [decide_eq_true_iff, pubPostOf_slug ha]
          exact hne

theorem mem_feed_iff {libs : ExternalLibs} {dir : List DirEntry} {feed : List Post}
    (hok : getSortedPostsData libs dir = Except.ok feed) {p : Post} :
    p ∈ feed ↔ ∃ e ∈ mdEntries dir, pubPostOf libs e = some p := by
  rw [feed_eq hok, (jsSort_perm postLt _).mem_iff, List.mem_filterMap]

theorem name_inj {dir : List DirEntry} (hnd : (dir.map DirEntry.name).Nodup)
    {e e' : DirEntry} (he : e ∈ dir) (he' : e' ∈ dir) (h : e.name = e'.name) :
    e = e' :=
  List.inj_on_of_nodup_map hnd he he' h

theorem mdEntries_mem {dir : List DirEntry} {e : DirEntry} (h : e ∈ mdEntries dir) :
    e ∈ dir :=
  List.mem_of_mem_filter h

theorem mdEntries_mem_of {dir : List DirEntry} {e : DirEntry} (he : e ∈ dir)
    (hmd : strEndsWith e.name ".md" = true) : e ∈ mdEntries dir :=
  List.mem_filter.mpr ⟨he, hmd⟩

theorem mdEntries_names_nodup {dir : List DirEntry}
    (hnd : (dir.map DirEntry.name).Nodup) :
    ((mdEntries dir).map DirEntry.name).Nodup :=
  ((List.filter_sublist dir).map DirEntry.name).nodup hnd

/-! ## Concrete fixtures used to evaluate the pipeline -/

/-- A concrete instantiation of the two external libraries (identity
rendering), used to evaluate the pipeline on concrete directories. -/
def libs0 : ExternalLibs := ⟨fun s => s, fun s => s⟩

/-- A well-formed published post with a date-prefixed filename and a
comma-delimited tags field. -/
def hdrA : YamlHeader :=
  { title := some "A", published := some true, date := none, description := none,
    tags := some "a, b , c", series := none, cover_image := none, __content := "bodyA" }

def eA : DirEntry := ⟨"2020-01-05-example.md", some (FileData.wellFormed hdrA)⟩

def pA : Post := mkPost libs0 eA.name hdrA

/-- A well-formed published post with no date field and a filename whose
first ten characters do not parse as a date. -/
def hdrB : YamlHeader :=
  { title := some "B", published := some true, date := none, description := none,
    tags := none, series := none, cover_image := none, __content := "bodyB" }

def eB : DirEntry := ⟨"no-date-here.md", some (FileData.wellFormed hdrB)⟩

def pB : Post := mkPost libs0 eB.name hdrB

/-- A well-formed but unpublished post. -/
def hdrU : YamlHeader :=
  { title := some "U", published := some false, date := some 7, description := none,
    tags := none, series := none, cover_image := none, __content := "bodyU" }

def eU : DirEntry := ⟨"unpublished.md", some (FileData.wellFormed hdrU)⟩

/-- A file whose front-matter block is malformed. -/
def eBad : DirEntry := ⟨"bad.md", some FileData.malformed⟩

/-- A file whose read fails. -/
def eGone : DirEntry := ⟨"gone.md", none⟩

/-- Two published posts with the same explicit date, at distinct slugs. -/
def hdrT1 : YamlHeader :=
  { title := some "T1", published := some true, date := some 5, description := none,
    tags := none, series := none, cover_image := none, __content := "bodyT1" }

def hdrT2 : YamlHeader :=
  { title := some "T2", published := some true, date := some 5, description := none,
    tags := none, series := none, cover_image := none, __content := "bodyT2" }

def eT1 : DirEntry := ⟨"t1.md", some (FileData.wellFormed hdrT1)⟩

def eT2 : DirEntry := ⟨"t2.md", some (FileData.wellFormed hdrT2)⟩

def pT1 : Post := mkPost libs0 eT1.name hdrT1

def pT2 : Post := mkPost libs0 eT2.name hdrT2

/-- A published post whose tags string contains an empty element. -/
def hdrG : YamlHeader :=
  { title := some "G", published := some true, date := some 3, description := none,
    tags := some "a,,b", series := none, cover_image := none, __content := "bodyG" }

def eG : DirEntry := ⟨"gap-tags.md", some (FileData.wellFormed hdrG)⟩

def pG : Post := mkPost libs0 eG.name hdrG

/-! ## Claims -/

/-- C1: for every content file in the content directory with the `.md`
extension, a well-formed front-matter header and `published = true`, the
feed produced by the build contains exactly one entry whose slug equals
the source filename, and slugs are unique across all feed entries.  The
filenames returned by one directory scan are pairwise distinct, which the
`Nodup` hypothesis records. -/
theorem C1_published_file_unique_slug
    (libs : ExternalLibs) (dir : List DirEntry)
    (hnd : (dir.map DirEntry.name).Nodup)
    (e : DirEntry) (he : e ∈ dir) (hmd : strEndsWith e.name ".md" = true)
    (y : YamlHeader) (hy : e.content = some (FileData.wellFormed y))
    (hpub : y.published = some true)
    (feed : List Post) (hok : getSortedPostsData libs dir = Except.ok feed) :
    feed.countP (fun p => decide (p.slug = e.name)) = 1 ∧
    (feed.map Post.slug).Nodup := by
  have hfe := feed_eq hok
  have hmdmem := mdEntries_mem_of he hmd
  have hmdnd := mdEntries_names_nodup hnd
  have hpp : pubPostOf libs e = some (mkPost libs e.name y) := by
    rw [pubPostOf_wellFormed hy, if_pos hpub]
  constructor
  · rw [hfe, (jsSort_perm postLt _).countP_eq]
    exact count_slug_one hmdnd hmdmem hpp
  · rw [hfe]
    have hsub := slugs_sublist_names libs (mdEntries dir)
    exact (((jsSort_perm postLt _).map Post.slug).nodup_iff).mpr (hsub.nodup hmdnd)

theorem C1_witness :
    ([eA, eU].map DirEntry.name).Nodup ∧ eA ∈ [eA, eU] ∧
    strEndsWith eA.name ".md" = true ∧
    eA.content = some (FileData.wellFormed hdrA) ∧ hdrA.published = some true ∧
    getSortedPostsData libs0 [eA, eU] = Except.ok [pA] ∧
    (([pA] : List Post).countP (fun p => decide (p.slug = eA.name)) = 1 ∧
      ([pA].map Post.slug).Nodup) :=
  ⟨by decide, by decide, by decide, by decide, by decide, by decide,
    C1_published_file_unique_slug libs0 [eA, eU] (by decide) eA (by decide) (by decide)
      hdrA (by decide) (by decide) [pA] (by decide)⟩

/-- C2: a content file whose header parses but whose `published` flag is
not `true` (false or absent) contributes no feed entry for its slug, and
every post of the final feed has `published = true`: unpublished posts
are excluded entirely. -/
theorem C2_unpublished_excluded
    (libs : ExternalLibs) (dir : List DirEntry)
    (hnd : (dir.map DirEntry.name).Nodup)
    (e : DirEntry) (he : e ∈ dir)
    (y : YamlHeader) (hy : e.content = some (FileData.wellFormed y))
    (hnp : y.published ≠ some true)
    (feed : List Post) (hok : getSortedPostsData libs dir = Except.ok feed) :
    (∀ p ∈ feed, p.published = some true) ∧ (∀ p ∈ feed, p.slug ≠ e.name) := by
  constructor
  · intro p hp
    obtain ⟨e', _, hp'⟩ := (mem_feed_iff hok).mp hp
    exact pubPostOf_published hp'
  · intro p hp hslug
    obtain ⟨e', he', hp'⟩ := (mem_feed_iff hok).mp hp
    have hname : e'.name = e.name := by rw [← pubPostOf_slug hp', hslug]
    have : e' = e := name_inj hnd (mdEntries_mem he') he hname
    subst this
    rw [pubPostOf_wellFormed hy, if_neg hnp] at hp'
    cases hp'

theorem C2_witness :
    ([eA, eU].map DirEntry.name).Nodup ∧
    eU.content = some (FileData.wellFormed hdrU) ∧ hdrU.published ≠ some true ∧
    getSortedPostsData libs0 [eA, eU] = Except.ok [pA] ∧
    pA.published = some true ∧ pA.slug ≠ eU.name :=
  ⟨by decide, by decide, by decide, by decide,
    (C2_unpublished_excluded libs0 [eA, eU] (by decide) eU (by decide) hdrU (by decide)
      (by decide) [pA] (by decide)).1 pA (by decide),
    (C2_unpublished_excluded libs0 [eA, eU] (by decide) eU (by decide) hdrU (by decide)
      (by decide) [pA] (by decide)).2 pA (by decide)⟩

theorem chain'_imp_of_mem {α : Type _} {R S : α → α → Prop} {P : α → Prop} :
    ∀ {l : List α}, List.Chain' R l → (∀ x ∈ l, P x) →
      (∀ a b, P a → P b → R a b → S a b) → List.Chain' S l := by
  intro l
  induction l with
  | nil => intro _ _ _; exact List.chain'_nil
  | cons a m ih =>
    intro hc hP himp
    cases m with
    | nil => exact List.chain'_singleton a
    | cons b m' =>
      rw [List.chain'_cons] at hc ⊢
      exact ⟨himp a b (hP a (by simp)) (hP b (by simp)) hc.1,
        ih hc.2 (fun x hx => hP x (List.mem_cons_of_mem a hx)) himp⟩

/-- C3 counterexample: a published file with no date field and an
unparseable filename prefix enters the feed with a `NaN` date.  On the
scan order `[no-date-here.md, 2020-01-05-example.md]` the engine compares
`cmp(pA, pB)`: `valid < NaN` is false, so the comparator returns `-1`, the
two-element run is classified descending and reversed, and the feed is
`[pA, pB]` — whose adjacent pair violates `date[0] >= date[1]`, since no
comparison with `NaN` holds in JavaScript. -/
theorem C3_counterexample :
    getSortedPostsData libs0 [eB, eA] = Except.ok [pA, pB] ∧
    jsDateGe pA.date pB.date = false :=
  ⟨by decide, by decide⟩

/-- C3 (amended): provided every post of the feed has a valid (non-`NaN`)
resolved date, the feed is sorted by date in descending order: every
adjacent pair satisfies `date[i] >= date[i+1]`. -/
theorem C3_sorted_descending
    (libs : ExternalLibs) (dir : List DirEntry) (feed : List Post)
    (hok : getSortedPostsData libs dir = Except.ok feed)
    (hvalid : ∀ p ∈ feed, p.date.isSome = true) :
    List.Chain' (fun a b => jsDateGe a.date b.date = true) feed := by
  have hchain : List.Chain' (fun a b => postLt a b = false) feed := by
    rw [feed_eq hok]
    exact jsSort_chain' postLt postLt_flip _
  refine chain'_imp_of_mem hchain hvalid ?_
  intro a b ha hb hab
  match hx : a.date, hy : b.date with
  | some x, some y =>
    unfold postLt at hab
    rw [hx, hy] at hab
    unfold jsDateLt at hab
    rw [decide_eq_false_iff_not] at hab
    unfold jsDateGe
    rw [decide_eq_true_eq]
    omega
  | some x, none => rw [hy] at hb; cases hb
  | none, some y => rw [hx] at ha; cases ha
  | none, none => rw [hx] at ha; cases ha

theorem C3_witness :
    getSortedPostsData libs0 [eT1, eA] = Except.ok [pA, pT1] ∧
    List.Chain' (fun a b => jsDateGe a.date b.date = true) [pA, pT1] :=
  ⟨by decide,
    C3_sorted_descending libs0 [eT1, eA] [pA, pT1] (by decide) (by decide)⟩

/-- C4 counterexample: two published posts with the same explicit date,
scanned in the order `[t1.md, t2.md]`, come out of the build reversed:
the comparator returns `-1` on the first (tied) comparison, so the
two-element run is classified descending and reversed.  Their relative
order in the feed is therefore not their scan order. -/
theorem C4_counterexample :
    scannedPosts libs0 [eT1, eT2] = Except.ok [some pT1, some pT2] ∧
    publishedOf [some pT1, some pT2] = [pT1, pT2] ∧
    pT1.date = pT2.date ∧
    getSortedPostsData libs0 [eT1, eT2] = Except.ok [pT2, pT1] ∧
    pT1 ≠ pT2 :=
  ⟨by decide, by decide, by decide, by decide, by decide⟩

/-- C4 (amended): the sort comparator never returns `0`, so ECMAScript
leaves the order of equal-date posts implementation-defined and the
engine does not preserve scan order: a directory of two published
well-formed `.md` files with the same date, scanned `[e1, e2]`, produces
the feed `[p2, p1]` — the equal-date pair is reversed, not kept in scan
order. -/
theorem C4_equal_dates_reversed
    (libs : ExternalLibs) (e1 e2 : DirEntry) (y1 y2 : YamlHeader)
    (h1 : e1.content = some (FileData.wellFormed y1)) (hp1 : y1.published = some true)
    (hmd1 : strEndsWith e1.name ".md" = true)
    (h2 : e2.content = some (FileData.wellFormed y2)) (hp2 : y2.published = some true)
    (hmd2 : strEndsWith e2.name ".md" = true)
    (d : Int) (hd1 : y1.date = some d) (hd2 : y2.date = some d) :
    getSortedPostsData libs [e1, e2] =
      Except.ok [mkPost libs e2.name y2, mkPost libs e1.name y1] := by
  have hg1 : getPostData libs e1 = Except.ok (some (mkPost libs e1.name y1)) := by
    rw [getPostData, h1]
  have hg2 : getPostData libs e2 = Except.ok (some (mkPost libs e2.name y2)) := by
    rw [getPostData, h2]
  have hfl : [e1, e2].filter (fun e => strEndsWith e.name ".md") = [e1, e2] := by
    simp [List.filter_cons, hmd1, hmd2]
  have hd1' : (mkPost libs e1.name y1).date = some d := by
    show (match y1.date with
      | some d => some d
      | none => jsDateParse (strTake e1.name 10)) = some d
    rw [hd1]
  have hd2' : (mkPost libs e2.name y2).date = some d := by
    show (match y2.date with
      | some d => some d
      | none => jsDateParse (strTake e2.name 10)) = some d
    rw [hd2]
  have hpo : publishedOf [some (mkPost libs e1.name y1), some (mkPost libs e2.name y2)] =
      [mkPost libs e1.name y1, mkPost libs e2.name y2] := by
    rw [publishedOf_cons_some, show (mkPost libs e1.name y1).published = y1.published from rfl,
      if_pos hp1, publishedOf_cons_some,
      show (mkPost libs e2.name y2).published = y2.published from rfl, if_pos hp2]
    rfl
  have hsc : scannedPosts libs [e1, e2] =
      Except.ok [some (mkPost libs e1.name y1), some (mkPost libs e2.name y2)] := by
    unfold scannedPosts
    rw [hfl, List.map_cons, List.map_cons, List.map_nil, hg1, hg2]
    rfl
  have hlt : postLt (mkPost libs e2.name y2) (mkPost libs e1.name y1) = false := by
    unfold postLt
    rw [hd1', hd2']
    unfold jsDateLt
    rw [decide_eq_false_iff_not]
    omega
  unfold getSortedPostsData
  rw [hsc]
  show Except.ok (jsSort postLt (publishedOf
    [some (mkPost libs e1.name y1), some (mkPost libs e2.name y2)])) = _
  rw [hpo, jsSort_pair_of_not_lt _ _ hlt]

theorem C4_witness :
    (pT1.date = some 5 ∧ pT2.date = some 5) ∧
    getSortedPostsData libs0 [eT1, eT2] = Except.ok [pT2, pT1] :=
  ⟨⟨by decide, by decide⟩,
    C4_equal_dates_reversed libs0 eT1 eT2 hdrT1 hdrT2 (by decide) (by decide) (by decide)
      (by decide) (by decide) (by decide) 5 (by decide) (by decide)⟩

/-- C5: a directory with one well-formed published post and one file with
a malformed front-matter block still builds: the feed artifact is written
with exactly the well-formed post, one success line is logged for it, and
exactly one failure diagnostic is logged for the malformed file. -/
theorem C5_malformed_file_resilience
    (libs : ExternalLibs) (e1 e2 : DirEntry) (y : YamlHeader)
    (h1 : e1.content = some (FileData.wellFormed y)) (hpub : y.published = some true)
    (hmd1 : strEndsWith e1.name ".md" = true)
    (h2 : e2.content = some FileData.malformed)
    (hmd2 : strEndsWith e2.name ".md" = true) :
    markdownToJson libs [e1, e2] = Except.ok ⟨[mkPost libs e1.name y]⟩ ∧
    successLogs [mkPost libs e1.name y] = [e1.name] ∧
    failureLogCount libs [e1, e2] = 1 := by
  have hg1 : getPostData libs e1 = Except.ok (some (mkPost libs e1.name y)) := by
    rw [getPostData, h1]
  have hg2 : getPostData libs e2 = Except.ok none := by
    rw [getPostData, h2]
  have hfl : [e1, e2].filter (fun e => strEndsWith e.name ".md") = [e1, e2] := by
    simp [List.filter_cons, hmd1, hmd2]
  have hpo : publishedOf [some (mkPost libs e1.name y), none] = [mkPost libs e1.name y] := by
    rw [publishedOf_cons_some, show (mkPost libs e1.name y).published = y.published from rfl,
      if_pos hpub, publishedOf_cons_none]
    rfl
  have hsc : scannedPosts libs [e1, e2] =
      Except.ok [some (mkPost libs e1.name y), none] := by
    unfold scannedPosts
    rw [hfl, List.map_cons, List.map_cons, List.map_nil, hg1, hg2]
    rfl
  have hgs : getSortedPostsData libs [e1, e2] = Except.ok [mkPost libs e1.name y] := by
    unfold getSortedPostsData
    rw [hsc]
    show Except.ok (jsSort postLt (publishedOf [some (mkPost libs e1.name y), none])) = _
    rw [hpo]
    rfl
  refine ⟨?_, rfl, ?_⟩
  · unfold markdownToJson
    rw [hgs]
  · unfold failureLogCount
    rw [hfl, List.countP_cons, List.countP_cons, List.countP_nil, hg1, hg2]
    rfl

theorem C5_witness :
    eA.content = some (FileData.wellFormed hdrA) ∧ hdrA.published = some true ∧
    eBad.content = some FileData.malformed ∧
    (markdownToJson libs0 [eA, eBad] = Except.ok ⟨[mkPost libs0 eA.name hdrA]⟩ ∧
      successLogs [mkPost libs0 eA.name hdrA] = [eA.name] ∧
      failureLogCount libs0 [eA, eBad] = 1) :=
  ⟨by decide, by decide, by decide,
    C5_malformed_file_resilience libs0 eA eBad hdrA (by decide) (by decide) (by decide)
      (by decide) (by decide)⟩

/-- In a directory whose filenames are distinct, the feed post carrying a
well-formed source file's name as slug is exactly `mkPost` of that file's
header. -/
theorem feed_post_at_slug {libs : ExternalLibs} {dir : List DirEntry}
    (hnd : (dir.map DirEntry.name).Nodup)
    {e : DirEntry} (he : e ∈ dir) {y : YamlHeader}
    (hy : e.content = some (FileData.wellFormed y))
    {feed : List Post} (hok : getSortedPostsData libs dir = Except.ok feed)
    {p : Post} (hp : p ∈ feed) (hslug : p.slug = e.name) :
    p = mkPost libs e.name y := by
  obtain ⟨e', he', hp'⟩ := (mem_feed_iff hok).mp hp
  have hname : e'.name = e.name := by rw [← pubPostOf_slug hp', hslug]
  have : e' = e := name_inj hnd (mdEntries_mem he') he hname
  subst this
  obtain ⟨y', hy', _, hmk⟩ := pubPostOf_eq_some hp'
  rw [hy] at hy'
  simp only [Option.some.injEq, FileData.wellFormed.injEq] at hy'
  rw [hmk, ← hy']

/-- C6 counterexample: `no-date-here.md` has no header date field and its
first ten characters do not parse as a date, yet ingestion reports no
ParseFailure: the file yields a feed entry whose date is `NaN`, refuting
the claim that such a file yields no feed entry. -/
theorem C6_counterexample :
    hdrB.date = none ∧ jsDateParse (strTake eB.name 10) = none ∧
    getSortedPostsData libs0 [eB] = Except.ok [pB] ∧ pB.date = none :=
  ⟨by decide, by decide, by decide, by decide⟩

/-- C6 (amended): date resolution for every ingested file: an explicit
header date is used as-is; with no date field the date is
`Date.parse(filename.substring(0, 10))`; when that parse also fails the
resolved date is the invalid-date value `NaN` (`none`) and the file — if
published — still yields exactly one feed entry (no ParseFailure is
raised). -/
theorem C6_date_resolution
    (libs : ExternalLibs) (dir : List DirEntry)
    (hnd : (dir.map DirEntry.name).Nodup)
    (e : DirEntry) (he : e ∈ dir) (hmd : strEndsWith e.name ".md" = true)
    (y : YamlHeader) (hy : e.content = some (FileData.wellFormed y))
    (hpub : y.published = some true)
    (feed : List Post) (hok : getSortedPostsData libs dir = Except.ok feed) :
    feed.countP (fun p => decide (p.slug = e.name)) = 1 ∧
    ∀ p ∈ feed, p.slug = e.name →
      p.date = (match y.date with
                | some d => some d
                | none => jsDateParse (strTake e.name 10)) := by
  constructor
  · have hpp : pubPostOf libs e = some (mkPost libs e.name y) := by
      rw [pubPostOf_wellFormed hy, if_pos hpub]
    rw [feed_eq hok, (jsSort_perm postLt _).countP_eq]
    exact count_slug_one (mdEntries_names_nodup hnd) (mdEntries_mem_of he hmd) hpp
  · intro p hp hslug
    rw [feed_post_at_slug hnd he hy hok hp hslug]
    rfl

theorem C6_witness :
    getSortedPostsData libs0 [eA, eB] = Except.ok [pB, pA] ∧
    pA.date = some (dateCode 2020 1 5) ∧ pB.date = none ∧
    ([pB, pA].countP (fun p => decide (p.slug = eA.name)) = 1) ∧
    pA.date = (match hdrA.date with
               | some d => some d
               | none => jsDateParse (strTake eA.name 10)) :=
  ⟨by decide, by decide, by decide,
   (C6_date_resolution libs0 [eA, eB] (by decide) eA (by decide) (by decide) hdrA
      (by decide) (by decide) [pB, pA] (by decide)).1,
   (C6_date_resolution libs0 [eA, eB] (by decide) eA (by decide) (by decide) hdrA
      (by decide) (by decide) [pB, pA] (by decide)).2 pA (by decide) (by decide)⟩

/-- C7 counterexample: the code does not drop empty entries when
normalizing tags: the tags string `"a,,b"` yields the list
`["a", "", "b"]`, which contains an empty tag, refuting the claimed
dropping of empty entries. -/
theorem C7_counterexample :
    hdrG.tags = some "a,,b" ∧
    getSortedPostsData libs0 [eG] = Except.ok [pG] ∧
    pG.tags = some ["a", "", "b"] ∧ ("" ∈ ["a", "", "b"]) :=
  ⟨by decide, by decide, by decide, by decide⟩

/-- C7 (amended): a tags field given as a single comma-delimited string is
normalized by splitting on comma and trimming surrounding whitespace from
each element, preserving order; empty entries are kept, not dropped.  In
particular `tags: a, b , c` yields exactly `["a","b","c"]`. -/
theorem C7_tag_normalization
    (libs : ExternalLibs) (dir : List DirEntry)
    (hnd : (dir.map DirEntry.name).Nodup)
    (e : DirEntry) (he : e ∈ dir)
    (y : YamlHeader) (hy : e.content = some (FileData.wellFormed y))
    (s : String) (hs : y.tags = some s)
    (feed : List Post) (hok : getSortedPostsData libs dir = Except.ok feed) :
    ∀ p ∈ feed, p.slug = e.name → p.tags = some ((jsSplit ',' s).map jsTrim) := by
  intro p hp hslug
  rw [feed_post_at_slug hnd he hy hok hp hslug]
  show y.tags.map (fun t => (jsSplit ',' t).map jsTrim) = _
  rw [hs]
  rfl

theorem C7_witness :
    hdrA.tags = some "a, b , c" ∧
    getSortedPostsData libs0 [eA] = Except.ok [pA] ∧
    pA.tags = some ((jsSplit ',' "a, b , c").map jsTrim) ∧
    (jsSplit ',' "a, b , c").map jsTrim = ["a", "b", "c"] :=
  ⟨by decide, by decide,
   C7_tag_normalization libs0 [eA] (by decide) eA (by decide) hdrA (by decide)
     "a, b , c" (by decide) [pA] (by decide) pA (by decide) (by decide),
   by decide⟩

/-- C8 counterexample: with one well-formed published file and one
unreadable file the build does not skip the failing file and continue —
the whole batch rejects and no feed is produced, refuting the claim that
a feed is still produced from the remaining files. -/
theorem C8_counterexample :
    eGone.content = none ∧
    getSortedPostsData libs0 [eA, eGone] = Except.error () ∧
    markdownToJson libs0 [eA, eGone] = Except.error () :=
  ⟨by decide, by decide, by decide⟩

/-- C8 (amended): a single unreadable content file is not recovered as a
per-file ParseFailure: the read happens before the `try` block, its
rejection propagates through `Promise.all`, and the whole build fails with
no feed produced. -/
theorem C8_unreadable_file_aborts
    (libs : ExternalLibs) (dir : List DirEntry)
    (e : DirEntry) (he : e ∈ dir) (hmd : strEndsWith e.name ".md" = true)
    (hc : e.content = none) :
    getSortedPostsData libs dir = Except.error () ∧
    markdownToJson libs dir = Except.error () := by
  have hmem : Except.error () ∈ (mdEntries dir).map (getPostData libs) := by
    refine List.mem_map.mpr ⟨e, mdEntries_mem_of he hmd, ?_⟩
    rw [getPostData, hc]
  have hscan : scannedPosts libs dir = Except.error () := by
    unfold scannedPosts
    exact promiseAll_error_of_mem hmem
  constructor
  · unfold getSortedPostsData
    rw [hscan]
  · unfold markdownToJson getSortedPostsData
    rw [hscan]

theorem C8_witness :
    eGone.content = none ∧ strEndsWith eGone.name ".md" = true ∧
    (getSortedPostsData libs0 [eA, eGone] = Except.error () ∧
      markdownToJson libs0 [eA, eGone] = Except.error ()) :=
  ⟨by decide, by decide,
   C8_unreadable_file_aborts libs0 [eA, eGone] eGone (by decide) (by decide) (by decide)⟩

/-- C10: every post of the feed carries, besides the documented fields, a
`__content` field holding the raw un-rendered markdown body of its source
file: the parsed front-matter object is spread into the Post record and
its body field is never removed. -/
theorem C10_content_key_retained
    (libs : ExternalLibs) (dir : List DirEntry)
    (hnd : (dir.map DirEntry.name).Nodup)
    (feed : List Post) (hok : getSortedPostsData libs dir = Except.ok feed)
    (p : Post) (hp : p ∈ feed)
    (e : DirEntry) (he : e ∈ dir) (hslug : p.slug = e.name)
    (y : YamlHeader) (hy : e.content = some (FileData.wellFormed y)) :
    p.__content = y.__content := by
  rw [feed_post_at_slug hnd he hy hok hp hslug]
  rfl

theorem C10_witness :
    getSortedPostsData libs0 [eA] = Except.ok [pA] ∧
    pA.__content = hdrA.__content ∧ hdrA.__content = "bodyA" :=
  ⟨by decide,
   C10_content_key_retained libs0 [eA] (by decide) [pA] (by decide) pA (by decide)
     eA (by decide) (by decide) hdrA (by decide),
   by decide⟩

/-! ## The excerpt computation (spec model)

The script delegates excerpt computation to the external `excerpt-html`
package (`excerptHtml(contentHtml, { pruneLength: 250 })`), whose source
is not part of this repository.  The spec describes it as: derive a
bounded excerpt from the rendered HTML, truncated to a maximum character
budget (about 250) at a word/tag-safe boundary, re-closing any tags left
open by truncation.  We model that description and verify the claimed
bound and well-formedness against the model. -/

/-- Modelled from the spec: rendered HTML as a token stream — text runs,
opening tags and closing tags (the level of detail at which the spec's
truncation and tag re-closing policy operates). -/
inductive HtmlTok where
  | text (s : String)
  | openTag (n : String)
  | closeTag (n : String)
deriving DecidableEq

/-- The number of rendered text characters of a token stream (markup
characters are not counted against the budget). -/
def textLen : List HtmlTok → Nat
  | [] => 0
  | HtmlTok.text s :: ts => s.length + textLen ts
  | _ :: ts => textLen ts

/-- Closing tags for every still-open tag, innermost first. -/
def closeAll (stack : List String) : List HtmlTok :=
  stack.map HtmlTok.closeTag

/-- Stack-based well-formedness checker: every closing tag matches the
innermost open tag and no tag is left open at the end. -/
def checkBalanced : List String → List HtmlTok → Bool
  | stack, [] => stack.isEmpty
  | stack, HtmlTok.text _ :: ts => checkBalanced stack ts
  | stack, HtmlTok.openTag n :: ts => checkBalanced (n :: stack) ts
  | stack, HtmlTok.closeTag n :: ts =>
    match stack with
    | [] => false
    | m :: rest => m = n && checkBalanced rest ts

/-- Modelled from the spec: the excerpt scanner.  It copies tokens while
the running text-character count stays within the budget, tracking the
stack of open tags; when the next text run would exceed the budget (or
input ends) it stops at that token boundary and re-closes every open tag.
Stray closing tags that match nothing are dropped. -/
def excerptScan (budget : Nat) : List HtmlTok → List String → Nat → List HtmlTok
  | [], stack, _ => closeAll stack
  | HtmlTok.text s :: ts, stack, used =>
    if used + s.length ≤ budget then
      HtmlTok.text s :: excerptScan budget ts stack (used + s.length)
    else closeAll stack
  | HtmlTok.openTag n :: ts, stack, used =>
    HtmlTok.openTag n :: excerptScan budget ts (n :: stack) used
  | HtmlTok.closeTag n :: ts, stack, used =>
    match stack with
    | [] => excerptScan budget ts [] used
    | m :: rest =>
      if n = m then HtmlTok.closeTag n :: excerptScan budget ts rest used
      else excerptScan budget ts (m :: rest) used

/-- Modelled from the spec: the `excerpt-html` call — truncate the
rendered HTML to the character budget (250 in the script) and re-close
open tags. -/
def excerptHtmlModel (budget : Nat) (toks : List HtmlTok) : List HtmlTok :=
  excerptScan budget toks [] 0

theorem textLen_closeAll (stack : List String) : textLen (closeAll stack) = 0 := by
  induction stack with
  | nil => rfl
  | cons n rest ih =>
    show textLen (HtmlTok.closeTag n :: closeAll rest) = 0
    rw [show textLen (HtmlTok.closeTag n :: closeAll rest) = textLen (closeAll rest) from rfl, ih]

theorem checkBalanced_closeAll (stack : List String) :
    checkBalanced stack (closeAll stack) = true := by
  induction stack with
  | nil => rfl
  | cons n rest ih =>
    show checkBalanced (n :: rest) (HtmlTok.closeTag n :: closeAll rest) = true
    show (n = n && checkBalanced rest (closeAll rest)) = true
    rw [ih]
    simp

theorem textLen_excerptScan (budget : Nat) :
    ∀ (toks : List HtmlTok) (stack : List String) (used : Nat),
      textLen (excerptScan budget toks stack used) ≤ budget - used := by
  intro toks
  induction toks with
  | nil =>
    intro stack used
    rw [show excerptScan budget [] stack used = closeAll stack from rfl, textLen_closeAll]
    exact Nat.zero_le _
  | cons t ts ih =>
    intro stack used
    match t with
    | HtmlTok.text s =>
      show textLen (if used + s.length ≤ budget then
          HtmlTok.text s :: excerptScan budget ts stack (used + s.length)
        else closeAll stack) ≤ budget - used
      by_cases hle : used + s.length ≤ budget
      · rw [if_pos hle]
        have := ih stack (used + s.length)
        show s.length + textLen (excerptScan budget ts stack (used + s.length)) ≤ budget - used
        omega
      · rw [if_neg hle, textLen_closeAll]
        exact Nat.zero_le _
    | HtmlTok.openTag n =>
      show textLen (HtmlTok.openTag n :: excerptScan budget ts (n :: stack) used) ≤ budget - used
      show textLen (excerptScan budget ts (n :: stack) used) ≤ budget - used
      exact ih (n :: stack) used
    | HtmlTok.closeTag n =>
      match stack with
      | [] => exact ih [] used
      | m :: rest =>
        show textLen (if n = m then HtmlTok.closeTag n :: excerptScan budget ts rest used
          else excerptScan budget ts (m :: rest) used) ≤ budget - used
        by_cases hnm : n = m
        · rw [if_pos hnm]
          exact ih rest used
        · rw [if_neg hnm]
          exact ih (m :: rest) used

theorem checkBalanced_excerptScan (budget : Nat) :
    ∀ (toks : List HtmlTok) (stack : List String) (used : Nat),
      checkBalanced stack (excerptScan budget toks stack used) = true := by
  intro toks
  induction toks with
  | nil =>
    intro stack used
    exact checkBalanced_closeAll stack
  | cons t ts ih =>
    intro stack used
    match t with
    | HtmlTok.text s =>
      show checkBalanced stack (if used + s.length ≤ budget then
          HtmlTok.text s :: excerptScan budget ts stack (used + s.length)
        else closeAll stack) = true
      by_cases hle : used + s.length ≤ budget
      · rw [if_pos hle]
        show checkBalanced stack (excerptScan budget ts stack (used + s.length)) = true
        exact ih stack (used + s.length)
      · rw [if_neg hle]
        exact checkBalanced_closeAll stack
    | HtmlTok.openTag n =>
      show checkBalanced (n :: stack) (excerptScan budget ts (n :: stack) used) = true
      exact ih (n :: stack) used
    | HtmlTok.closeTag n =>
      match stack with
      | [] => exact ih [] used
      | m :: rest =>
        show checkBalanced (m :: rest) (if n = m then
            HtmlTok.closeTag n :: excerptScan budget ts rest used
          else excerptScan budget ts (m :: rest) used) = true
        by_cases hnm : n = m
        · rw [if_pos hnm]
          show (m = n && checkBalanced rest (excerptScan budget ts rest used)) = true
          rw [ih rest used, hnm]
          simp
        · rw [if_neg hnm]
          exact ih (m :: rest) used

/-- C9: the excerpt never exceeds the configured character budget (250 in
the script) — markup aside, its rendered text length is at most the
budget, the only characters beyond it being the re-closing tags — and it
is well-formed HTML: every tag opened in the excerpt is closed, even when
truncation fell inside the body. -/
theorem C9_excerpt_bounded_and_balanced (budget : Nat) (toks : List HtmlTok) :
    textLen (excerptHtmlModel budget toks) ≤ budget ∧
    checkBalanced [] (excerptHtmlModel budget toks) = true := by
  constructor
  · have := textLen_excerptScan budget toks [] 0
    rw [Nat.sub_zero] at this
    exact this
  · exact checkBalanced_excerptScan budget toks [] 0

end Blog
